import Mathlib

/-!
Verification development for the hashtag-scoring pipeline of
`src/components/HashtagGenerator.tsx`.

The pipeline consists of three pure functions:
* `extractKeywords` — frequency-based scorer (the spec's FrequencyScorer);
* `generateCategoryHashtags` — category/keyword scorer (the spec's CategoryScorer);
* the merge/dedupe/rank step inside `generateHashtags` (the spec's Merger).

Modelling conventions:
* JS strings are Lean `String`s / `List Char`; JS `toLowerCase` is `Char.toLower`
  mapped over the characters.
* The regex class `\w` (`[A-Za-z0-9_]`) is `isWordChar`; `\s` is `Char.isWhitespace`
  (we restrict attention to ASCII whitespace, as the spec's examples do).
* JS floating-point numbers are embedded as exact rationals `ℚ`; arithmetic on the
  small values involved is order-isomorphic to the float arithmetic of the source.
* `Array.prototype.sort` is stable (ES2019); a stable sort by a given key is a
  uniquely determined function of the input list, so we render it as a stable
  insertion sort (`sortDesc`, `sortCnt`).
* The JS object `wordCount` built by repeated `wordCount[word] = (wordCount[word]||0)+1`
  is rendered as a fold over an association list (`bump`); `Object.entries` then
  yields the accumulated association list.  (JS enumerates integer-like keys such
  as `"2024"` before string keys; no property proved here depends on the order of
  the entries before sorting, so this quirk is immaterial.)
-/

namespace HashtagGen

/-- A generated hashtag, from the source's
`interface GeneratedHashtag { tag: string; confidence: number }`. -/
structure Hashtag where
  tag : String
  confidence : ℚ
deriving DecidableEq, Repr

/-- JS regex `\w`: ASCII letter, digit or underscore. -/
def isWordChar (c : Char) : Bool := c.isAlphanum || c == '_'

/-- JS regex `\s` (restricted to ASCII whitespace). -/
def isWsChar (c : Char) : Bool := c.isWhitespace

/-- Maximal runs of non-whitespace characters, in order.  `acc` holds the
current (reversed) run being built. -/
def fieldsAux (acc : List Char) : List Char → List (List Char)
  | [] => if acc.isEmpty then [] else [acc.reverse]
  | c :: cs =>
    if isWsChar c then
      if acc.isEmpty then fieldsAux [] cs else acc.reverse :: fieldsAux [] cs
    else fieldsAux (c :: acc) cs

/-- Split a character list into its maximal whitespace-free runs. -/
def fields (cs : List Char) : List (List Char) := fieldsAux [] cs

/-- JS `str.split(/\s+/)`: the whitespace-free runs, except that an empty
string yields `[""]`, a leading separator contributes a leading `""`, and a
trailing separator contributes a trailing `""`. -/
def splitWsJS (cs : List Char) : List (List Char) :=
  (if cs.head?.elim true isWsChar then [([] : List Char)] else []) ++
  fields cs ++
  (if cs.getLast?.elim false isWsChar then [([] : List Char)] else [])

/-- The source's stop-word list `commonWords`. -/
def commonWords : List String :=
  ["that", "this", "with", "from", "they", "have", "been", "were", "will",
   "would", "could", "should", "about", "there", "their", "where", "when",
   "what", "which", "while", "through", "during", "before", "after", "above",
   "below", "between", "into", "onto", "upon", "within", "without"]

/-- Stop-words as character lists. -/
def commonWordsL : List (List Char) := commonWords.map String.data

/-- Lower-cased character sequence of the input (`text.toLowerCase()`). -/
def lowerData (text : String) : List Char := text.data.map Char.toLower

/-- `text.toLowerCase().replace(/[^\w\s]/g, ' ')`: every character that is
neither a word character nor whitespace becomes a space. -/
def replacedChars (text : String) : List Char :=
  (lowerData text).map (fun c => if isWordChar c || isWsChar c then c else ' ')

/-- The token list produced by `.split(/\s+/)` in `extractKeywords`. -/
def tokensJS (text : String) : List (List Char) := splitWsJS (replacedChars text)

/-- `.filter(word => word.length > 3 && !commonWords.includes(word))`. -/
def filteredTokens (text : String) : List (List Char) :=
  (tokensJS text).filter (fun w => decide (3 < w.length ∧ w ∉ commonWordsL))

/-- One step of `wordCount[word] = (wordCount[word] || 0) + 1`: bump the
count of `w` in the association list, appending a fresh entry if absent. -/
def bump : List (List Char × ℕ) → List Char → List (List Char × ℕ)
  | [], w => [(w, 1)]
  | (k, c) :: t, w => if k = w then (k, c + 1) :: t else (k, c) :: bump t w

/-- `Object.entries(wordCount)` after the counting loop: distinct tokens in
insertion order, each with its total count. -/
def wordEntries (toks : List (List Char)) : List (List Char × ℕ) :=
  toks.foldl bump []

/-- Stable descending insertion by count, matching the source's stable
`sort(([, a], [, b]) => b - a)`: the new element goes after strictly larger
counts and before equal or smaller ones. -/
def insertCnt (x : List Char × ℕ) : List (List Char × ℕ) → List (List Char × ℕ)
  | [] => [x]
  | y :: t => if x.2 < y.2 then y :: insertCnt x t else x :: y :: t

/-- Stable descending-by-count sort of the word/count entries. -/
def sortCnt : List (List Char × ℕ) → List (List Char × ℕ)
  | [] => []
  | x :: t => insertCnt x (sortCnt t)

/-- `Math.min` on two (non-NaN) numbers. -/
def ratMin (a b : ℚ) : ℚ := if a ≤ b then a else b

/-- The source's `extractKeywords` (the spec's FrequencyScorer): count the
filtered tokens, sort descending by count, keep the top 12, and emit
`{ tag: "#" + word, confidence: min(count / words.length * 2, 0.9) }`
where `words.length` is the number of filtered tokens.  The rational
`count / words.length * 2` is written `mkRat (2 * count) words.length`
(an identical value, see `confidence_formula`) so that terms evaluate. -/
def extractKeywords (text : String) : List Hashtag :=
  ((sortCnt (wordEntries (filteredTokens text))).take 12).map
    (fun p => { tag := String.mk ('#' :: p.1),
                confidence := ratMin (mkRat (2 * p.2) (filteredTokens text).length) (mkRat 9 10) })

/-- The source's fixed category table: 8 categories, each with its ordered
keyword list. -/
def categories : List (String × List String) :=
  [("technology", ["tech", "ai", "software", "digital", "innovation", "coding",
                   "development", "startup", "algorithm"]),
   ("business", ["business", "entrepreneur", "marketing", "sales", "profit",
                 "company", "corporate", "strategy"]),
   ("lifestyle", ["life", "living", "daily", "routine", "habit", "wellness",
                  "balance", "personal"]),
   ("fitness", ["fitness", "workout", "exercise", "health", "gym", "training",
                "muscle", "strength"]),
   ("travel", ["travel", "trip", "vacation", "journey", "adventure", "explore",
               "destination", "tourism"]),
   ("food", ["food", "recipe", "cooking", "delicious", "meal", "restaurant",
             "cuisine", "flavor"]),
   ("education", ["learn", "education", "study", "knowledge", "skill", "course",
                  "training", "development"]),
   ("creativity", ["creative", "art", "design", "inspiration", "idea",
                   "innovation", "artistic", "imagination"])]

/-- Does `hay` start with `needle`? -/
def startsWith : List Char → List Char → Bool
  | [], _ => true
  | _ :: _, [] => false
  | a :: as, b :: bs => a == b && startsWith as bs

/-- JS `hay.includes(needle)`: substring containment. -/
def containsSub (needle : List Char) : List Char → Bool
  | [] => needle.isEmpty
  | c :: t => startsWith needle (c :: t) || containsSub needle t

/-- The keywords of one category that occur as substrings of the lower-cased
text: `keywords.filter(keyword => lowerText.includes(keyword))`. -/
def matchedKeywords (kws : List String) (text : String) : List String :=
  kws.filter (fun kw => containsSub kw.data (lowerData text))

/-- The block of hashtags one category pushes onto `matchedCategories`:
the category tag with confidence `matches.length / keywords.length`, then one
keyword tag at the constant confidence `0.7` for each of the first two matches. -/
def categoryBlock (cat : String) (kws : List String) (text : String) : List Hashtag :=
  if (matchedKeywords kws text).length > 0 then
    { tag := "#" ++ cat,
      confidence := mkRat (matchedKeywords kws text).length kws.length } ::
    ((matchedKeywords kws text).take 2).map
      (fun kw => { tag := "#" ++ kw, confidence := mkRat 7 10 })
  else []

/-- The full `matchedCategories` list accumulated by the `forEach` loop over
the category table, before sorting and truncation. -/
def matchedCategories (text : String) : List Hashtag :=
  (categories.map (fun p => categoryBlock p.1 p.2 text)).flatten

/-- Stable descending insertion by confidence, matching the source's stable
`sort((a, b) => b.confidence - a.confidence)`. -/
def insertDesc (x : Hashtag) : List Hashtag → List Hashtag
  | [] => [x]
  | y :: t => if x.confidence < y.confidence then y :: insertDesc x t else x :: y :: t

/-- Stable descending-by-confidence sort of a hashtag list. -/
def sortDesc : List Hashtag → List Hashtag
  | [] => []
  | x :: t => insertDesc x (sortDesc t)

/-- The source's `generateCategoryHashtags` (the spec's CategoryScorer):
emit per-category blocks, sort descending by confidence, keep the top 8. -/
def generateCategoryHashtags (text : String) : List Hashtag :=
  (sortDesc (matchedCategories text)).take 8

/-- The lower-cased tag characters, `h.tag.toLowerCase()`, used for
case-insensitive duplicate detection. -/
def toLowerTagL (h : Hashtag) : List Char := h.tag.data.map Char.toLower

/-- Keep-first-occurrence deduplication by lower-cased tag; `seen` holds the
lower-cased tags already kept.  This renders the source's
`filter((hashtag, index, arr) => arr.findIndex(h => h.tag.toLowerCase() ===
hashtag.tag.toLowerCase()) === index)`. -/
def dedupAux : List Hashtag → List (List Char) → List Hashtag
  | [], _ => []
  | h :: t, seen =>
    if toLowerTagL h ∈ seen then dedupAux t seen
    else h :: dedupAux t (toLowerTagL h :: seen)

/-- Remove case-insensitive duplicate tags, keeping the first occurrence. -/
def dedupByTag (l : List Hashtag) : List Hashtag := dedupAux l []

/-- The spec's `Merger.merge`: concatenate, deduplicate case-insensitively
keeping first occurrences, sort descending by confidence (stably), truncate. -/
def merge (a b : List Hashtag) (limit : ℕ) : List Hashtag :=
  (sortDesc (dedupByTag (a ++ b))).take limit

/-- The full pipeline of `generateHashtags` (identical in the try and catch
branches): merge the two scorers' outputs with limit 15. -/
def generateHashtags (text : String) : List Hashtag :=
  merge (extractKeywords text) (generateCategoryHashtags text) 15

/-- The count recorded for `w` in the association list `acc` (0 if absent):
`wordCount[w] || 0`. -/
def lookupCount (acc : List (List Char × ℕ)) (w : List Char) : ℕ :=
  match acc.find? (fun p => p.1 == w) with
  | some p => p.2
  | none => 0

/-- Tokenization as worded by the spec, for the refinement statement of the
tokenizer: replace every character that is not a letter, digit or underscore
with a space (whitespace included), then split on runs of whitespace. -/
def replacedCharsSpec (text : String) : List Char :=
  (lowerData text).map (fun c => if isWordChar c then c else ' ')

/-- Spec-worded token list: the whitespace-free runs of `replacedCharsSpec`. -/
def tokensSpec (text : String) : List (List Char) := fields (replacedCharsSpec text)

/-- Spec-worded surviving tokens: discard tokens of length at most 3 and
stop-words. -/
def filteredTokensSpec (text : String) : List (List Char) :=
  (tokensSpec text).filter (fun w => decide (3 < w.length ∧ w ∉ commonWordsL))

/-! ### The stable descending sort -/

theorem mem_insertDesc {x y : Hashtag} {l : List Hashtag} :
    y ∈ insertDesc x l ↔ y = x ∨ y ∈ l := by
  induction l with
  | nil => simp [insertDesc]
  | cons z t ih =>
    by_cases h : x.confidence < z.confidence
    · simp only [insertDesc, if_pos h, List.mem_cons, ih]
      tauto
    · simp only [insertDesc, if_neg h, List.mem_cons]

theorem insertDesc_perm (x : Hashtag) (l : List Hashtag) :
    List.Perm (insertDesc x l) (x :: l) := by
  induction l with
  | nil => rfl
  | cons z t ih =>
    by_cases h : x.confidence < z.confidence
    · rw [show insertDesc x (z :: t) = z :: insertDesc x t from by simp [insertDesc, h]]
      exact (ih.cons z).trans (List.Perm.swap x z t)
    · rw [show insertDesc x (z :: t) = x :: z :: t from by simp [insertDesc, h]]

theorem sortDesc_perm (l : List Hashtag) : List.Perm (sortDesc l) l := by
  induction l with
  | nil => rfl
  | cons x t ih => exact (insertDesc_perm x (sortDesc t)).trans (ih.cons x)

theorem sortedDesc_insertDesc {x : Hashtag} {l : List Hashtag}
    (h : l.Pairwise (fun a b => b.confidence ≤ a.confidence)) :
    (insertDesc x l).Pairwise (fun a b => b.confidence ≤ a.confidence) := by
  induction l with
  | nil => simp [insertDesc]
  | cons z t ih =>
    rcases List.pairwise_cons.1 h with ⟨hz, ht⟩
    by_cases hc : x.confidence < z.confidence
    · rw [show insertDesc x (z :: t) = z :: insertDesc x t from by simp [insertDesc, hc]]
      refine List.pairwise_cons.2 ⟨?_, ih ht⟩
      intro y hy
      rcases mem_insertDesc.1 hy with rfl | hy
      · exact le_of_lt hc
      · exact hz y hy
    · rw [show insertDesc x (z :: t) = x :: z :: t from by simp [insertDesc, hc]]
      refine List.pairwise_cons.2 ⟨?_, h⟩
      intro y hy
      rcases List.mem_cons.1 hy with rfl | hy
      · exact le_of_not_lt hc
      · exact le_trans (hz y hy) (le_of_not_lt hc)

theorem sortedDesc_sortDesc (l : List Hashtag) :
    (sortDesc l).Pairwise (fun a b => b.confidence ≤ a.confidence) := by
  induction l with
  | nil => simp [sortDesc]
  | cons x t ih => exact sortedDesc_insertDesc ih

theorem filter_insertDesc (x : Hashtag) (l : List Hashtag) (q : ℚ) :
    (insertDesc x l).filter (fun h => decide (h.confidence = q)) =
      if x.confidence = q then x :: l.filter (fun h => decide (h.confidence = q))
      else l.filter (fun h => decide (h.confidence = q)) := by
  induction l with
  | nil => by_cases hx : x.confidence = q <;> simp [insertDesc, hx]
  | cons z t ih =>
    by_cases hc : x.confidence < z.confidence
    · rw [show insertDesc x (z :: t) = z :: insertDesc x t from by simp [insertDesc, hc]]
      by_cases hx : x.confidence = q
      · have hz : ¬ z.confidence = q := by
          intro hz
          rw [hx] at hc
          rw [hz] at hc
          exact lt_irrefl q hc
        simp [List.filter_cons, hx, hz, ih]
      · by_cases hz : z.confidence = q <;> simp [List.filter_cons, hx, hz, ih]
    · rw [show insertDesc x (z :: t) = x :: z :: t from by simp [insertDesc, hc]]
      by_cases hx : x.confidence = q <;> simp [List.filter_cons, hx]

theorem filter_sortDesc (l : List Hashtag) (q : ℚ) :
    (sortDesc l).filter (fun h => decide (h.confidence = q)) =
      l.filter (fun h => decide (h.confidence = q)) := by
  induction l with
  | nil => rfl
  | cons x t ih =>
    rw [show sortDesc (x :: t) = insertDesc x (sortDesc t) from rfl, filter_insertDesc]
    by_cases hx : x.confidence = q <;> simp [List.filter_cons, hx, ih]

/-! ### Deduplication by lower-cased tag -/

theorem dedupAux_spec : ∀ (l : List Hashtag) (seen : List (List Char)) (h : Hashtag),
    h ∈ dedupAux l seen →
    toLowerTagL h ∉ seen ∧
      l.find? (fun x => toLowerTagL x == toLowerTagL h) = some h := by
  intro l
  induction l with
  | nil => intro seen h hm; simp [dedupAux] at hm
  | cons a t ih =>
    intro seen h hm
    by_cases ha : toLowerTagL a ∈ seen
    · rw [show dedupAux (a :: t) seen = dedupAux t seen from by simp [dedupAux, ha]] at hm
      obtain ⟨hns, hf⟩ := ih seen h hm
      have hne : toLowerTagL a ≠ toLowerTagL h := fun he => hns (he ▸ ha)
      exact ⟨hns, by simpa [hne] using hf⟩
    · rw [show dedupAux (a :: t) seen = a :: dedupAux t (toLowerTagL a :: seen) from by
        simp [dedupAux, ha]] at hm
      rcases List.mem_cons.1 hm with rfl | hm
      · exact ⟨ha, List.find?_cons_of_pos _ (by simp)⟩
      · obtain ⟨hns, hf⟩ := ih _ h hm
        have hne : toLowerTagL a ≠ toLowerTagL h := fun he => hns (by simp [← he])
        exact ⟨fun hs => hns (List.mem_cons_of_mem _ hs), by simpa [hne] using hf⟩

theorem pairwise_dedupAux : ∀ (l : List Hashtag) (seen : List (List Char)),
    (dedupAux l seen).Pairwise (fun x y => toLowerTagL x ≠ toLowerTagL y) := by
  intro l
  induction l with
  | nil => intro seen; simp [dedupAux]
  | cons a t ih =>
    intro seen
    by_cases ha : toLowerTagL a ∈ seen
    · simpa [dedupAux, ha] using ih seen
    · rw [show dedupAux (a :: t) seen = a :: dedupAux t (toLowerTagL a :: seen) from by
        simp [dedupAux, ha]]
      refine List.pairwise_cons.2 ⟨?_, ih _⟩
      intro y hy he
      exact (dedupAux_spec t _ y hy).1 (by simp [← he])

theorem mem_of_mem_merge {a b : List Hashtag} {n : ℕ} {h : Hashtag}
    (hm : h ∈ merge a b n) : h ∈ dedupByTag (a ++ b) := by
  have h1 : h ∈ sortDesc (dedupByTag (a ++ b)) :=
    (List.take_sublist n _).subset hm
  exact (sortDesc_perm _).mem_iff.1 h1

/-- C1: the merge output never contains two entries with case-insensitively
equal tags; each surviving entry is the first element of `a ++ b` carrying its
(case-insensitive) tag; and an entry whose tag already occurs in `a` always
survives from `a`, so a CategoryScorer duplicate of a FrequencyScorer tag is
dropped and never the reverse. -/
theorem merge_dedup_sound (a b : List Hashtag) (n : ℕ) :
    (merge a b n).Pairwise (fun x y => toLowerTagL x ≠ toLowerTagL y) ∧
    (∀ h ∈ merge a b n,
      (a ++ b).find? (fun x => toLowerTagL x == toLowerTagL h) = some h) ∧
    (∀ h ∈ merge a b n, (∃ x ∈ a, toLowerTagL x = toLowerTagL h) → h ∈ a) := by
  have hfind : ∀ h ∈ merge a b n,
      (a ++ b).find? (fun x => toLowerTagL x == toLowerTagL h) = some h :=
    fun h hm => (dedupAux_spec (a ++ b) [] h (mem_of_mem_merge hm)).2
  refine ⟨?_, hfind, ?_⟩
  · have hp := pairwise_dedupAux (a ++ b) []
    have h2 := ((sortDesc_perm (dedupByTag (a ++ b))).pairwise_iff
      (fun hxy he => hxy he.symm)).2 hp
    exact h2.sublist (List.take_sublist n _)
  · intro h hm hex
    obtain ⟨x, hxa, hxe⟩ := hex
    have hsome : (a.find? (fun x => toLowerTagL x == toLowerTagL h)).isSome := by
      rw [List.find?_isSome]
      exact ⟨x, hxa, by simp [hxe]⟩
    obtain ⟨y, hy⟩ := Option.isSome_iff_exists.1 hsome
    have : (a ++ b).find? (fun x => toLowerTagL x == toLowerTagL h) = some y := by
      rw [List.find?_append, hy]
      rfl
    have hyh : y = h := by
      have := this.symm.trans (hfind h hm)
      exact Option.some.inj this
    exact hyh ▸ List.mem_of_find?_eq_some hy

/-- Witness for `merge_dedup_sound` at a concrete input: with
`a = [⟨"#x", 1/2⟩]` and `b = [⟨"#X", 3/4⟩]`, the surviving entry is the first
occurrence (from `a`), so the `b`-side duplicate is the one dropped. -/
theorem merge_dedup_sound_witness :
    (([⟨"#x", mkRat 1 2⟩] ++ [⟨"#X", mkRat 3 4⟩] : List Hashtag).find?
        (fun x => toLowerTagL x == toLowerTagL ⟨"#x", mkRat 1 2⟩) =
      some ⟨"#x", mkRat 1 2⟩) ∧
    (⟨"#x", mkRat 1 2⟩ : Hashtag) ∈ ([⟨"#x", mkRat 1 2⟩] : List Hashtag) := by
  have h := merge_dedup_sound [⟨"#x", mkRat 1 2⟩] [⟨"#X", mkRat 3 4⟩] 15
  exact ⟨h.2.1 ⟨"#x", mkRat 1 2⟩ (by decide),
    h.2.2 ⟨"#x", mkRat 1 2⟩ (by decide) ⟨⟨"#x", mkRat 1 2⟩, by decide, by decide⟩⟩

/-- C2: the merge output is sorted descending by confidence, and the sort is
stable: two equal-confidence entries appearing in that order in the output
appeared in that order in the deduplicated concatenation of `a` then `b`. -/
theorem merge_sorted_stable (a b : List Hashtag) (n : ℕ) :
    (merge a b n).Pairwise (fun x y => y.confidence ≤ x.confidence) ∧
    ∀ x y : Hashtag, x.confidence = y.confidence →
      [x, y].Sublist (merge a b n) → [x, y].Sublist (dedupByTag (a ++ b)) := by
  constructor
  · exact (sortedDesc_sortDesc (dedupByTag (a ++ b))).sublist (List.take_sublist n _)
  · intro x y hq hs
    have hs1 : [x, y].Sublist (sortDesc (dedupByTag (a ++ b))) :=
      hs.trans (List.take_sublist n _)
    have hf : [x, y].filter (fun h => decide (h.confidence = x.confidence)) = [x, y] := by
      simp [List.filter_cons, hq.symm]
    have hs2 := hs1.filter (fun h => decide (h.confidence = x.confidence))
    rw [hf, filter_sortDesc] at hs2
    exact hs2.trans (List.filter_sublist _)

/-- Witness for `merge_sorted_stable` at a concrete input: two equal-confidence
entries keep, in the merged output, the order they had in the deduplicated
concatenation. -/
theorem merge_sorted_stable_witness :
    List.Sublist [(⟨"#a", mkRat 1 2⟩ : Hashtag), ⟨"#b", mkRat 1 2⟩]
      (dedupByTag ([⟨"#a", mkRat 1 2⟩, ⟨"#b", mkRat 1 2⟩] ++ [])) :=
  (merge_sorted_stable [⟨"#a", mkRat 1 2⟩, ⟨"#b", mkRat 1 2⟩] [] 15).2
    ⟨"#a", mkRat 1 2⟩ ⟨"#b", mkRat 1 2⟩ rfl (by decide)

/-- C3: the merge returns at most `limit` entries, and the full pipeline,
which merges with limit 15, returns at most 15 hashtags for every input. -/
theorem merge_length_le :
    (∀ (a b : List Hashtag) (n : ℕ), (merge a b n).length ≤ n) ∧
    ∀ text : String, (generateHashtags text).length ≤ 15 := by
  refine ⟨fun a b n => ?_, fun text => ?_⟩
  · simp [merge]
  · simp [generateHashtags, merge]

/-! ### Word counting -/

theorem lookupCount_cons (k : List Char) (c : ℕ) (t : List (List Char × ℕ))
    (w : List Char) :
    lookupCount ((k, c) :: t) w = if k = w then c else lookupCount t w := by
  by_cases h : k = w
  · simp [lookupCount, h]
  · simp [lookupCount, h]

theorem lookupCount_bump (acc : List (List Char × ℕ)) (v w : List Char) :
    lookupCount (bump acc v) w = lookupCount acc w + (if w = v then 1 else 0) := by
  induction acc with
  | nil =>
    rw [show bump [] v = [(v, 1)] from rfl, lookupCount_cons]
    by_cases hw : w = v
    · rw [if_pos hw.symm, if_pos hw]
      rfl
    · rw [if_neg (fun h => hw h.symm), if_neg hw]
      rfl
  | cons kc t ih =>
    obtain ⟨k, c⟩ := kc
    by_cases hk : k = v
    · subst hk
      rw [show bump ((k, c) :: t) k = (k, c + 1) :: t from by simp [bump],
        lookupCount_cons, lookupCount_cons]
      by_cases hw : k = w
      · rw [if_pos hw, if_pos hw, if_pos hw.symm]
      · rw [if_neg hw, if_neg hw, if_neg (fun h => hw h.symm)]
        rfl
    · rw [show bump ((k, c) :: t) v = (k, c) :: bump t v from by simp [bump, hk],
        lookupCount_cons, lookupCount_cons]
      by_cases hw : k = w
      · rw [if_pos hw, if_pos hw, if_neg (fun h => hk (hw.trans h)), Nat.add_zero]
      · rw [if_neg hw, if_neg hw]
        exact ih

theorem lookupCount_foldl_bump :
    ∀ (l : List (List Char)) (acc : List (List Char × ℕ)) (w : List Char),
    lookupCount (l.foldl bump acc) w = lookupCount acc w + l.count w := by
  intro l
  induction l with
  | nil => intro acc w; simp
  | cons v t ih =>
    intro acc w
    rw [List.foldl_cons, ih, lookupCount_bump, List.count_cons]
    by_cases hw : w = v
    · rw [if_pos hw, if_pos (beq_iff_eq.2 hw.symm)]
      omega
    · rw [if_neg hw, if_neg (fun hh => hw (beq_iff_eq.1 hh).symm)]
      omega

theorem keys_bump_subset (acc : List (List Char × ℕ)) (v w : List Char)
    (h : w ∈ (bump acc v).map Prod.fst) : w ∈ acc.map Prod.fst ∨ w = v := by
  induction acc with
  | nil => simpa [bump] using h
  | cons kc t ih =>
    obtain ⟨k, c⟩ := kc
    by_cases hk : k = v
    · subst hk
      rw [show bump ((k, c) :: t) k = (k, c + 1) :: t from by simp [bump]] at h
      left
      simpa using (by simpa using h)
    · rw [show bump ((k, c) :: t) v = (k, c) :: bump t v from by simp [bump, hk],
        List.map_cons] at h
      rcases List.mem_cons.1 h with rfl | h
      · left
        simp
      · rcases ih h with h1 | h1
        · left
          exact List.mem_cons_of_mem _ h1
        · right
          exact h1

theorem keysNodup_bump (acc : List (List Char × ℕ)) (v : List Char)
    (h : (acc.map Prod.fst).Nodup) : ((bump acc v).map Prod.fst).Nodup := by
  induction acc with
  | nil => simp [bump]
  | cons kc t ih =>
    obtain ⟨k, c⟩ := kc
    rw [List.map_cons] at h
    obtain ⟨hk1, hk2⟩ := List.nodup_cons.1 h
    by_cases hk : k = v
    · subst hk
      rw [show bump ((k, c) :: t) k = (k, c + 1) :: t from by simp [bump]]
      rw [List.map_cons]
      exact List.nodup_cons.2 ⟨hk1, hk2⟩
    · rw [show bump ((k, c) :: t) v = (k, c) :: bump t v from by simp [bump, hk],
        List.map_cons]
      refine List.nodup_cons.2 ⟨?_, ih hk2⟩
      intro hmem
      rcases keys_bump_subset t v k hmem with h1 | h1
      · exact hk1 h1
      · exact hk h1

theorem keysNodup_foldl_bump :
    ∀ (l : List (List Char)) (acc : List (List Char × ℕ)),
    (acc.map Prod.fst).Nodup → ((l.foldl bump acc).map Prod.fst).Nodup := by
  intro l
  induction l with
  | nil => intro acc h; simpa using h
  | cons v t ih => intro acc h; exact ih _ (keysNodup_bump acc v h)

theorem lookupCount_of_mem :
    ∀ (acc : List (List Char × ℕ)) (w : List Char) (c : ℕ),
    (acc.map Prod.fst).Nodup → (w, c) ∈ acc → lookupCount acc w = c := by
  intro acc
  induction acc with
  | nil => intro w c _ h; simp at h
  | cons kc t ih =>
    intro w c hnd hm
    obtain ⟨k, c'⟩ := kc
    rw [List.map_cons] at hnd
    obtain ⟨hk1, hk2⟩ := List.nodup_cons.1 hnd
    rcases List.mem_cons.1 hm with he | hm
    · injection he with h1 h2
      subst h1
      subst h2
      rw [lookupCount_cons, if_pos rfl]
    · have hne : ¬ k = w := by
        intro hkw
        subst hkw
        exact hk1 (List.mem_map.2 ⟨_, hm, rfl⟩)
      rw [lookupCount_cons, if_neg hne]
      exact ih w c hk2 hm

theorem wordEntries_count (toks : List (List Char)) :
    ∀ p ∈ wordEntries toks, p.2 = toks.count p.1 := by
  intro p hp
  obtain ⟨w, c⟩ := p
  have hnd := keysNodup_foldl_bump toks [] (by simp)
  have h1 := lookupCount_of_mem _ w c hnd (by simpa [wordEntries] using hp)
  have h2 := lookupCount_foldl_bump toks [] w
  rw [h1] at h2
  simpa [lookupCount] using h2

theorem key_mem_foldl_bump :
    ∀ (l : List (List Char)) (acc : List (List Char × ℕ)) (p : List Char × ℕ),
    p ∈ l.foldl bump acc → p.1 ∈ acc.map Prod.fst ∨ p.1 ∈ l := by
  intro l
  induction l with
  | nil => intro acc p h; left; exact List.mem_map_of_mem Prod.fst h
  | cons v t ih =>
    intro acc p h
    rcases ih (bump acc v) p h with h1 | h1
    · rcases keys_bump_subset acc v p.1 h1 with h2 | h2
      · left
        exact h2
      · right
        rw [h2]
        exact List.mem_cons_self v t
    · right
      exact List.mem_cons_of_mem v h1

theorem mem_insertCnt {x y : List Char × ℕ} {l : List (List Char × ℕ)} :
    y ∈ insertCnt x l ↔ y = x ∨ y ∈ l := by
  induction l with
  | nil => simp [insertCnt]
  | cons z t ih =>
    by_cases h : x.2 < z.2
    · simp only [insertCnt, if_pos h, List.mem_cons, ih]
      tauto
    · simp only [insertCnt, if_neg h, List.mem_cons]

theorem mem_sortCnt {y : List Char × ℕ} {l : List (List Char × ℕ)} :
    y ∈ sortCnt l ↔ y ∈ l := by
  induction l with
  | nil => simp [sortCnt]
  | cons x t ih => simp [sortCnt, mem_insertCnt, ih, List.mem_cons]

/-! ### Rational-value bridges -/

theorem ratMin_eq_min (a b : ℚ) : ratMin a b = min a b := by
  rw [ratMin, min_def]

theorem confidence_formula (c t : ℕ) :
    (mkRat (2 * c) t : ℚ) = (c : ℚ) / (t : ℚ) * 2 := by
  rw [Rat.mkRat_eq_div]
  push_cast
  ring

theorem mkRat_nine_ten : (mkRat 9 10 : ℚ) = 9 / 10 := by
  rw [Rat.mkRat_eq_div]
  norm_num

theorem mkRat_seven_ten : (mkRat 7 10 : ℚ) = 7 / 10 := by
  rw [Rat.mkRat_eq_div]
  norm_num

theorem mkRat_nat_div (m n : ℕ) : (mkRat m n : ℚ) = (m : ℚ) / (n : ℚ) := by
  rw [Rat.mkRat_eq_div]
  push_cast
  ring

/-- C4: the FrequencyScorer emits at most 12 entries, each with confidence in
`[0, 0.9]`, and each entry for a token with occurrence count `c` has confidence
`min (c / totalFilteredTokenCount * 2) 0.9`, where the denominator is the
number of tokens surviving the filter (not the original text length). -/
theorem extractKeywords_spec (text : String) :
    (extractKeywords text).length ≤ 12 ∧
    ∀ h ∈ extractKeywords text,
      0 ≤ h.confidence ∧ h.confidence ≤ 9/10 ∧
      ∃ w : List Char,
        h.tag = String.mk ('#' :: w) ∧
        h.confidence =
          min (((filteredTokens text).count w : ℚ) /
            ((filteredTokens text).length : ℚ) * 2) (9/10) := by
  constructor
  · rw [extractKeywords, List.length_map]
    exact List.length_take_le 12 _
  · intro h hm
    rw [extractKeywords] at hm
    obtain ⟨p, hp, rfl⟩ := List.mem_map.1 hm
    have hpm : p ∈ wordEntries (filteredTokens text) :=
      mem_sortCnt.1 ((List.take_sublist 12 _).subset hp)
    have hcount := wordEntries_count _ p hpm
    have hval : ratMin (mkRat (2 * p.2) (filteredTokens text).length) (mkRat 9 10) =
        min ((p.2 : ℚ) / (((filteredTokens text).length : ℕ) : ℚ) * 2) (9/10) := by
      rw [ratMin_eq_min, confidence_formula, mkRat_nine_ten]
    refine ⟨?_, ?_, p.1, rfl, ?_⟩
    · show (0 : ℚ) ≤ ratMin _ _
      rw [hval]
      refine le_min ?_ (by norm_num)
      positivity
    · show ratMin _ _ ≤ (9 : ℚ)/10
      rw [hval]
      exact min_le_right _ _
    · show ratMin _ _ = _
      rw [hval, hcount]

/-- Witness for `extractKeywords_spec` at the input `"training"`, whose single
token scores `min (1/1*2) 0.9 = 0.9`. -/
theorem extractKeywords_spec_witness :
    0 ≤ (Hashtag.mk "#training" (mkRat 9 10)).confidence ∧
    (Hashtag.mk "#training" (mkRat 9 10)).confidence ≤ 9/10 ∧
    ∃ w : List Char,
      (Hashtag.mk "#training" (mkRat 9 10)).tag = String.mk ('#' :: w) ∧
      (Hashtag.mk "#training" (mkRat 9 10)).confidence =
        min (((filteredTokens "training").count w : ℚ) /
          ((filteredTokens "training").length : ℚ) * 2) (9/10) :=
  (extractKeywords_spec "training").2 ⟨"#training", mkRat 9 10⟩ (by decide)

/-! ### Tokenizer refinement -/

theorem fieldsAux_map_congr (f g : Char → Char)
    (hwf : ∀ c, isWsChar (f c) = isWsChar (g c))
    (hval : ∀ c, isWsChar (f c) = false → f c = g c) :
    ∀ (cs : List Char) (acc : List Char),
    fieldsAux acc (cs.map f) = fieldsAux acc (cs.map g) := by
  intro cs
  induction cs with
  | nil => intro acc; rfl
  | cons c t ih =>
    intro acc
    rw [List.map_cons, List.map_cons]
    by_cases hws : isWsChar (f c) = true
    · have hg : isWsChar (g c) = true := (hwf c) ▸ hws
      rw [show fieldsAux acc (f c :: t.map f) =
          (if acc.isEmpty then fieldsAux [] (t.map f)
           else acc.reverse :: fieldsAux [] (t.map f)) from by
            simp [fieldsAux, hws]]
      rw [show fieldsAux acc (g c :: t.map g) =
          (if acc.isEmpty then fieldsAux [] (t.map g)
           else acc.reverse :: fieldsAux [] (t.map g)) from by
            simp [fieldsAux, hg]]
      by_cases hacc : acc.isEmpty
      · rw [if_pos hacc, if_pos hacc, ih]
      · rw [if_neg hacc, if_neg hacc, ih]
    · have hf : isWsChar (f c) = false := by
        revert hws
        cases isWsChar (f c) <;> simp
      have hg : isWsChar (g c) = false := (hwf c) ▸ hf
      rw [show fieldsAux acc (f c :: t.map f) = fieldsAux (f c :: acc) (t.map f) from by
          simp [fieldsAux, hf]]
      rw [show fieldsAux acc (g c :: t.map g) = fieldsAux (g c :: acc) (t.map g) from by
          simp [fieldsAux, hg]]
      rw [hval c hf, ih]

theorem filter_kill_empties (p : List Char → Bool) (hp : p [] = false) :
    ∀ l : List (List Char), (∀ x ∈ l, x = []) → l.filter p = [] := by
  intro l hl
  induction l with
  | nil => rfl
  | cons x t ih =>
    have hx := hl x (List.mem_cons_self x t)
    subst hx
    rw [List.filter_cons, hp]
    simp only [Bool.false_eq_true, if_false]
    exact ih fun y hy => hl y (List.mem_cons_of_mem _ hy)

theorem filter_splitWsJS (p : List Char → Bool) (hp : p [] = false) (cs : List Char) :
    (splitWsJS cs).filter p = (fields cs).filter p := by
  have hpre : (if cs.head?.elim true isWsChar then [([] : List Char)] else []).filter p
      = [] := by
    refine filter_kill_empties p hp _ ?_
    split
    · intro x hx
      simpa using hx
    · intro x hx
      simp at hx
  have hpost : (if cs.getLast?.elim false isWsChar then [([] : List Char)] else []).filter p
      = [] := by
    refine filter_kill_empties p hp _ ?_
    split
    · intro x hx
      simpa using hx
    · intro x hx
      simp at hx
  rw [splitWsJS, List.filter_append, List.filter_append, hpre, hpost]
  simp

/-- C5: the tokenizer refinement.  The code lower-cases, replaces `[^\w\s]`
with spaces and splits on `\s+`; the spec words it as replacing every
non-word character with a space and splitting on whitespace runs.  After the
length/stop-word filter the two agree, and every emitted hashtag's tag comes
from a surviving token. -/
theorem tokenization_spec (text : String) :
    filteredTokens text = filteredTokensSpec text ∧
    ∀ h ∈ extractKeywords text,
    ∃ w ∈ filteredTokens text, h.tag = String.mk ('#' :: w) := by
  constructor
  · rw [filteredTokens, filteredTokensSpec, tokensJS, tokensSpec]
    rw [filter_splitWsJS _ (by decide) _]
    rw [fields, fields, replacedChars, replacedCharsSpec]
    refine congrArg _ (fieldsAux_map_congr _ _ ?_ ?_ (lowerData text) [])
    · intro c
      show isWsChar (if (isWordChar c || isWsChar c) = true then c else ' ') =
        isWsChar (if isWordChar c = true then c else ' ')
      by_cases hw : isWordChar c = true
      · rw [if_pos (by simp [hw]), if_pos hw]
      · by_cases hs : isWsChar c = true
        · rw [if_pos (by simp [hs]), if_neg hw, hs]
          decide
        · rw [if_neg (by simp [hw, hs]), if_neg hw]
    · intro c hc
      have hc2 : isWsChar (if (isWordChar c || isWsChar c) = true then c else ' ') =
          false := hc
      show (if (isWordChar c || isWsChar c) = true then c else ' ') =
        (if isWordChar c = true then c else ' ')
      by_cases hw : isWordChar c = true
      · rw [if_pos (by simp [hw]), if_pos hw]
      · by_cases hs : isWsChar c = true
        · exfalso
          rw [if_pos (by simp [hs]), hs] at hc2
          cases hc2
        · rw [if_neg (by simp [hw, hs]), if_neg hw]
  · intro h hm
    rw [extractKeywords] at hm
    obtain ⟨p, hp, rfl⟩ := List.mem_map.1 hm
    have hpm : p ∈ wordEntries (filteredTokens text) :=
      mem_sortCnt.1 ((List.take_sublist 12 _).subset hp)
    have hkey := key_mem_foldl_bump (filteredTokens text) [] p
      (by simpa [wordEntries] using hpm)
    simp only [List.map_nil, List.not_mem_nil, false_or] at hkey
    exact ⟨p.1, hkey, rfl⟩

/-- Witness for `tokenization_spec` at the input `"training"`. -/
theorem tokenization_spec_witness :
    ∃ w ∈ filteredTokens "training",
      (Hashtag.mk "#training" (mkRat 9 10)).tag = String.mk ('#' :: w) :=
  (tokenization_spec "training").2 ⟨"#training", mkRat 9 10⟩ (by decide)

/-- C6: if no token survives the length/stop-word filter, the FrequencyScorer
returns the empty list: the division by the token count is never evaluated on
any emitted entry. -/
theorem extractKeywords_of_no_tokens (text : String)
    (h : filteredTokens text = []) : extractKeywords text = [] := by
  rw [extractKeywords, h]
  rfl

/-- Witness for `extractKeywords_of_no_tokens`: the empty string and a
whitespace-only string both tokenize to nothing and score to nothing. -/
theorem extractKeywords_of_no_tokens_witness :
    (filteredTokens "" = [] ∧ extractKeywords "" = []) ∧
    (filteredTokens "  \t " = [] ∧ extractKeywords "  \t " = []) :=
  ⟨⟨by decide, extractKeywords_of_no_tokens "" (by decide)⟩,
   ⟨by decide, extractKeywords_of_no_tokens "  \t " (by decide)⟩⟩

/-! ### Category scorer -/

theorem categoryBlock_mem_matchedCategories {text : String} {cat : String}
    {kws : List String} (hc : (cat, kws) ∈ categories) {h : Hashtag}
    (hm : h ∈ categoryBlock cat kws text) : h ∈ matchedCategories text := by
  rw [matchedCategories, List.mem_flatten]
  exact ⟨categoryBlock cat kws text, List.mem_map.2 ⟨(cat, kws), hc, rfl⟩, hm⟩

theorem categories_kw_lengths : ∀ p ∈ categories, p.2.length = 8 ∨ p.2.length = 9 := by
  decide

theorem ratio_ne_seven_tenths (m n : ℕ) (hn : n = 8 ∨ n = 9) :
    ((m : ℚ) / (n : ℚ)) ≠ 7/10 := by
  intro h
  have hn0 : (n : ℚ) ≠ 0 := by rcases hn with rfl | rfl <;> norm_num
  rw [div_eq_div_iff hn0 (by norm_num : (10:ℚ) ≠ 0)] at h
  have h3 : m * 10 = 7 * n := by exact_mod_cast h
  rcases hn with rfl | rfl <;> omega

/-- C7: for every category with at least one matched keyword, the
CategoryScorer emits the category tag with confidence
`|matches| / |keywords-in-category|` and a keyword tag at the literal constant
confidence 0.7 for each of the first two matches (in keyword-list order); and
in total exactly `min 2 |matches|` entries at confidence 0.7 arise per
category. -/
theorem category_emission (text : String) :
    (∀ cat kws, (cat, kws) ∈ categories → matchedKeywords kws text ≠ [] →
      Hashtag.mk ("#" ++ cat)
        (((matchedKeywords kws text).length : ℚ) / (kws.length : ℚ))
        ∈ matchedCategories text ∧
      ∀ kw ∈ (matchedKeywords kws text).take 2,
        Hashtag.mk ("#" ++ kw) (7/10) ∈ matchedCategories text) ∧
    (matchedCategories text).countP (fun h => decide (h.confidence = 7/10))
      = (categories.map (fun p => min 2 (matchedKeywords p.2 text).length)).sum := by
  constructor
  · intro cat kws hc hne
    have hlen : (matchedKeywords kws text).length > 0 :=
      List.length_pos.2 hne
    constructor
    · rw [show (((matchedKeywords kws text).length : ℚ) / (kws.length : ℚ)) =
          mkRat (matchedKeywords kws text).length kws.length from
          (mkRat_nat_div _ _).symm]
      apply categoryBlock_mem_matchedCategories hc
      rw [categoryBlock, if_pos hlen]
      exact List.mem_cons_self _ _
    · intro kw hkw
      rw [show (7:ℚ)/10 = mkRat 7 10 from mkRat_seven_ten.symm]
      apply categoryBlock_mem_matchedCategories hc
      rw [categoryBlock, if_pos hlen]
      exact List.mem_cons_of_mem _ (List.mem_map.2 ⟨kw, hkw, rfl⟩)
  · rw [matchedCategories, List.countP_flatten, List.map_map]
    congr 1
    apply List.map_congr_left
    intro p hp
    obtain ⟨cat, kws⟩ := p
    show (categoryBlock cat kws text).countP (fun h => decide (h.confidence = 7/10))
      = min 2 (matchedKeywords kws text).length
    by_cases hne : (matchedKeywords kws text).length > 0
    · rw [categoryBlock, if_pos hne, List.countP_cons]
      have hkl := categories_kw_lengths (cat, kws) hp
      have hneq : decide ((Hashtag.mk ("#" ++ cat)
          (mkRat (matchedKeywords kws text).length kws.length)).confidence = 7/10)
          = false := by
        rw [decide_eq_false_iff_not]
        show ¬ (mkRat (matchedKeywords kws text).length kws.length : ℚ) = 7/10
        rw [mkRat_nat_div]
        exact ratio_ne_seven_tenths _ _ hkl
      rw [hneq]
      simp only [Bool.false_eq_true, if_false, Nat.add_zero]
      have hall : List.countP (fun h => decide (h.confidence = 7/10))
          (((matchedKeywords kws text).take 2).map
            (fun kw => Hashtag.mk ("#" ++ kw) (mkRat 7 10))) =
          (((matchedKeywords kws text).take 2).map
            (fun kw => Hashtag.mk ("#" ++ kw) (mkRat 7 10))).length := by
        rw [List.countP_eq_length]
        intro a ha
        obtain ⟨kw, _, rfl⟩ := List.mem_map.1 ha
        simp [mkRat_seven_ten]
      rw [hall, List.length_map, List.length_take]
    · rw [categoryBlock, if_neg hne]
      have h0 : (matchedKeywords kws text).length = 0 := by omega
      rw [h0]
      rfl

/-- Witness for `category_emission` at the input `"training"` and the fitness
category: `#fitness` is emitted at `1/8` and `#training` at `0.7`. -/
theorem category_emission_witness :
    Hashtag.mk "#fitness"
      (((matchedKeywords ["fitness", "workout", "exercise", "health", "gym",
        "training", "muscle", "strength"] "training").length : ℚ) /
        ((["fitness", "workout", "exercise", "health", "gym", "training",
          "muscle", "strength"] : List String).length : ℚ))
      ∈ matchedCategories "training" ∧
    Hashtag.mk "#training" (7/10) ∈ matchedCategories "training" := by
  have h := (category_emission "training").1 "fitness"
    ["fitness", "workout", "exercise", "health", "gym", "training",
     "muscle", "strength"] (by decide) (by decide)
  exact ⟨h.1, h.2 "training" (by decide)⟩

theorem matchedCategories_conf_bounds (text : String) :
    ∀ h ∈ matchedCategories text, 0 ≤ h.confidence ∧ h.confidence ≤ 1 := by
  intro h hm
  rw [matchedCategories] at hm
  obtain ⟨l, hl, hml⟩ := List.mem_flatten.1 hm
  obtain ⟨p, hp, rfl⟩ := List.mem_map.1 hl
  rw [categoryBlock] at hml
  by_cases hne : (matchedKeywords p.2 text).length > 0
  · rw [if_pos hne] at hml
    rcases List.mem_cons.1 hml with rfl | hml
    · show (0:ℚ) ≤ mkRat _ _ ∧ (mkRat _ _ : ℚ) ≤ 1
      rw [mkRat_nat_div]
      have hle : (matchedKeywords p.2 text).length ≤ p.2.length :=
        List.length_filter_le _ _
      have hpos : 0 < p.2.length := lt_of_lt_of_le hne hle
      constructor
      · positivity
      · rw [div_le_one (by exact_mod_cast hpos)]
        exact_mod_cast hle
    · obtain ⟨kw, _, rfl⟩ := List.mem_map.1 hml
      show (0:ℚ) ≤ mkRat 7 10 ∧ (mkRat 7 10 : ℚ) ≤ 1
      rw [mkRat_seven_ten]
      norm_num
  · rw [if_neg hne] at hml
    cases hml

/-- C8: the CategoryScorer returns at most 8 entries, sorted descending by
confidence (the top 8 of the emitted list), each with confidence in [0, 1]. -/
theorem generateCategoryHashtags_spec (text : String) :
    (generateCategoryHashtags text).length ≤ 8 ∧
    (generateCategoryHashtags text).Pairwise (fun x y => y.confidence ≤ x.confidence) ∧
    ∀ h ∈ generateCategoryHashtags text,
      h ∈ matchedCategories text ∧ 0 ≤ h.confidence ∧ h.confidence ≤ 1 := by
  refine ⟨?_, ?_, ?_⟩
  · rw [generateCategoryHashtags]
    exact List.length_take_le 8 _
  · exact (sortedDesc_sortDesc (matchedCategories text)).sublist (List.take_sublist 8 _)
  · intro h hm
    have h1 : h ∈ sortDesc (matchedCategories text) := (List.take_sublist 8 _).subset hm
    have h2 : h ∈ matchedCategories text := (sortDesc_perm _).mem_iff.1 h1
    exact ⟨h2, matchedCategories_conf_bounds text h h2⟩

/-- Witness for `generateCategoryHashtags_spec` at the input `"training"`. -/
theorem generateCategoryHashtags_spec_witness :
    (Hashtag.mk "#ai" (mkRat 7 10) ∈ matchedCategories "training") ∧
    0 ≤ (Hashtag.mk "#ai" (mkRat 7 10)).confidence ∧
    (Hashtag.mk "#ai" (mkRat 7 10)).confidence ≤ 1 :=
  (generateCategoryHashtags_spec "training").2.2 ⟨"#ai", mkRat 7 10⟩ (by decide)

/-- C9: category matching is bare substring containment on the lower-cased
text: whenever any keyword of a category occurs as a substring (regardless of
word boundaries), the category tag is emitted. -/
theorem substring_match_emits (text cat kw : String) (kws : List String)
    (hc : (cat, kws) ∈ categories) (hkw : kw ∈ kws)
    (hsub : containsSub kw.data (lowerData text) = true) :
    ("#" ++ cat) ∈ (matchedCategories text).map Hashtag.tag := by
  have hmem : kw ∈ matchedKeywords kws text := by
    rw [matchedKeywords]
    exact List.mem_filter.2 ⟨hkw, hsub⟩
  have hne : matchedKeywords kws text ≠ [] := fun he => by
    rw [he] at hmem
    cases hmem
  have hlen : (matchedKeywords kws text).length > 0 := List.length_pos.2 hne
  refine List.mem_map.2 ⟨Hashtag.mk ("#" ++ cat)
    (mkRat (matchedKeywords kws text).length kws.length), ?_, rfl⟩
  apply categoryBlock_mem_matchedCategories hc
  rw [categoryBlock, if_pos hlen]
  exact List.mem_cons_self _ _

/-- Witness for `substring_match_emits`: `"aiming"` contains the technology
keyword `"ai"` inside an unrelated word, and the technology tag is emitted. -/
theorem substring_match_emits_witness :
    containsSub "ai".data (lowerData "aiming") = true ∧
    "#technology" ∈ (matchedCategories "aiming").map Hashtag.tag :=
  ⟨by decide, substring_match_emits "aiming" "technology" "ai"
    ["tech", "ai", "software", "digital", "innovation", "coding",
     "development", "startup", "algorithm"] (by decide) (by decide) (by decide)⟩

/-- C10: the CategoryScorer itself can return duplicate tags — for the input
`"training"` (a keyword of both fitness and education) the tag `#training`
appears twice in its output at confidence 0.7 — and only the Merger removes
the duplicate, so the full pipeline carries a single `#training`. -/
theorem categoryScorer_duplicate_tags :
    ((generateCategoryHashtags "training").map Hashtag.tag).count "#training" = 2 ∧
    ((generateHashtags "training").map Hashtag.tag).count "#training" = 1 := by
  decide

end HashtagGen
